import Mathlib

/-!
Shallow embedding of the semantic-token caching and rainbow-highlighting core:
`crates/project/src/lsp_store/semantic_token_cache.rs`,
`crates/project/src/lsp_store/semantic_tokens.rs`,
`crates/editor/src/semantic_tokens.rs`,
`crates/editor/src/semantic_highlighting.rs`, and
`crates/editor/src/rainbow.rs`.

Machine integers (`u32`, `u64`, `usize`) are modelled as `Nat`, with an explicit
`% 2 ^ 64` wherever Rust wrapping arithmetic occurs.  Rust panic sites are
modelled by `Option`-returning functions (`none` = panic).  Strings that are
only ever hashed byte-wise are modelled by their UTF-8 byte sequences
(`List Nat`).
-/

/-! ## Buffer chunks (`semantic_token_cache.rs`) -/

/-- Chunk size constant `MAX_ROWS_IN_A_CHUNK` from `semantic_token_cache.rs`. -/
def MAX_ROWS_IN_A_CHUNK : Nat := 50

/-- `BufferChunk` from `semantic_token_cache.rs`: a range of rows representing a
chunk of the buffer.  The Rust field `end` is named `stop` here because `end`
is a Lean keyword. -/
structure BufferChunk where
  id : Nat
  start : Nat
  stop : Nat
  deriving DecidableEq, Repr

/-- Chunk start rows computed inside `BufferSemanticTokens::new`:
`(0..=last_row).step_by(MAX_ROWS_IN_A_CHUNK)`, i.e. `0, 50, 100, …` up to and
including `last_row`; that stepped range has `last_row / 50 + 1` elements and
its `i`-th element is `i * 50`. -/
def chunkStarts (lastRow : Nat) : List Nat :=
  (List.range (lastRow / MAX_ROWS_IN_A_CHUNK + 1)).map (· * MAX_ROWS_IN_A_CHUNK)

/-- Chunk list computed by `BufferSemanticTokens::new` (`semantic_token_cache.rs`):
`.enumerate()` assigns contiguous ids in row order and each chunk ends at
`(chunk_start + MAX_ROWS_IN_A_CHUNK).min(last_row)`.  `lastRow` is
`buffer_point_range.end.row`, the row of the buffer's final offset. -/
def bufferChunks (lastRow : Nat) : List BufferChunk :=
  (chunkStarts lastRow).enum.map fun p =>
    { id := p.1, start := p.2, stop := min (p.2 + MAX_ROWS_IN_A_CHUNK) lastRow }

/-- `BufferSemanticTokens::applicable_chunks`.  The anchor-to-row conversion done
through the buffer snapshot belongs to the external text model and is factored
out: the argument is the list of already-converted inclusive row ranges
`point_range.start.row..=point_range.end.row`.  The filter body is the literal
test of the source:
`chunk_range.contains(row_range.start()) || chunk_range.contains(row_range.end())`. -/
def applicableChunks (chunks : List BufferChunk) (rowRanges : List (Nat × Nat)) :
    List BufferChunk :=
  chunks.filter fun chunk =>
    rowRanges.any fun rowRange =>
      decide (chunk.start ≤ rowRange.1 ∧ rowRange.1 ≤ chunk.stop) ||
      decide (chunk.start ≤ rowRange.2 ∧ rowRange.2 ≤ chunk.stop)

/-- C1: the spec requires `applicable_chunks` to return every chunk whose row span
intersects some requested range, but the code only tests whether the chunk
contains one of the requested range's endpoints.  Failing input: a 120-row
buffer (`last_row = 119`) with the single requested row range `0..=119`.
Chunk 1 (rows `50..=100`) intersects that range (the middle conjunct states the
intersection explicitly) yet it is absent from the result, which keeps only the
chunks containing row 0 or row 119. -/
theorem applicable_chunks_misses_inner_chunk :
    BufferChunk.mk 1 50 100 ∈ bufferChunks 119 ∧
    (max 50 0 ≤ min 100 119) ∧
    BufferChunk.mk 1 50 100 ∉ applicableChunks (bufferChunks 119) [(0, 119)] ∧
    applicableChunks (bufferChunks 119) [(0, 119)] =
      [BufferChunk.mk 0 0 50, BufferChunk.mk 2 100 119] := by
  decide

/-- C2 counterexample: the chunk row spans produced by `BufferSemanticTokens::new`
are not pairwise disjoint.  For a 101-row buffer (`last_row = 100`) chunks 0 and
1 have inclusive row spans `0..=50` and `50..=100`, which share row 50. -/
theorem bufferChunks_not_pairwise_disjoint :
    ((bufferChunks 100).any fun c1 =>
      (bufferChunks 100).any fun c2 =>
        decide (c1.id ≠ c2.id) && decide (max c1.start c2.start ≤ min c1.stop c2.stop))
      = true := by
  decide

/-- C2 (amended): for a buffer whose final row is `lastRow` (i.e. `R = lastRow + 1`
rows), `BufferSemanticTokens::new` produces `ceil(R / 50) = lastRow / 50 + 1`
chunks with contiguous ids in row order; chunk `i` spans rows
`50 * i ..= min (50 * i + 50) lastRow` inclusive, so consecutive chunks share
exactly their boundary row (they are not disjoint), and the union of the spans
covers the full row extent `0 ..= lastRow`. -/
theorem bufferChunks_coverage (lastRow : Nat) :
    (bufferChunks lastRow).length = lastRow / 50 + 1 ∧
    (bufferChunks lastRow).length = (lastRow + 1 + 49) / 50 ∧
    (∀ i, ∀ h : i < (bufferChunks lastRow).length,
      (bufferChunks lastRow).get ⟨i, h⟩ =
        BufferChunk.mk i (50 * i) (min (50 * i + 50) lastRow)) ∧
    (∀ r, r ≤ lastRow → ∃ c ∈ bufferChunks lastRow, c.start ≤ r ∧ r ≤ c.stop) := by
  have hlen : (bufferChunks lastRow).length = lastRow / 50 + 1 := by
    simp [bufferChunks, chunkStarts, MAX_ROWS_IN_A_CHUNK]
  have hget : ∀ i, ∀ h : i < (bufferChunks lastRow).length,
      (bufferChunks lastRow).get ⟨i, h⟩ =
        BufferChunk.mk i (50 * i) (min (50 * i + 50) lastRow) := by
    intro i h
    simp only [bufferChunks, chunkStarts, MAX_ROWS_IN_A_CHUNK, List.get_eq_getElem,
      List.getElem_map, List.getElem_enum, List.getElem_range]
    exact congrArg₂ (BufferChunk.mk i) (Nat.mul_comm i 50)
      (congrArg (min · lastRow) (by omega))
  refine ⟨hlen, by rw [hlen]; omega, hget, ?_⟩
  intro r hr
  have hi : r / 50 < (bufferChunks lastRow).length := by
    rw [hlen]
    exact Nat.lt_succ_of_le (Nat.div_le_div_right hr)
  refine ⟨(bufferChunks lastRow).get ⟨r / 50, hi⟩, (bufferChunks lastRow).get_mem _ _, ?_⟩
  rw [hget _ hi]
  dsimp only
  have hdm := Nat.div_add_mod r 50
  have hm : r % 50 < 50 := Nat.mod_lt _ (by omega)
  constructor
  · omega
  · exact le_min (by omega) hr

/-- C2 witness: the amended coverage theorem at `lastRow = 100` (a 101-row
buffer): three chunks, and row 75 is covered by some chunk. -/
theorem bufferChunks_coverage_witness :
    (bufferChunks 100).length = 100 / 50 + 1 ∧
    (∃ c ∈ bufferChunks 100, c.start ≤ 75 ∧ 75 ≤ c.stop) :=
  ⟨(bufferChunks_coverage 100).1, (bufferChunks_coverage 100).2.2.2 75 (by decide)⟩

/-! ## Delta token stream (`lsp_store/semantic_tokens.rs`) -/

/-- `SemanticToken` from `lsp_store/semantic_tokens.rs`: a decoded token with
absolute `line`/`start` positions. -/
structure SemanticToken where
  line : Nat
  start : Nat
  length : Nat
  tokenType : Nat
  tokenModifiers : Nat
  deriving DecidableEq, Repr

/-- `SemanticTokensIter::next` (`lsp_store/semantic_tokens.rs`), unfolded into the
list of all tokens it yields: the flat data is consumed five integers at a time
(`chunks_exact(5)` drops a trailing remainder shorter than five, hence the
catch-all final case); `prev` is the iterator's running previous absolute
`(line, start)` pair, `none` at stream start.  The position rule is the
source's: with a previous pair, `line = last_line + delta_line` and
`start = last_start + delta_start` when `delta_line == 0`, else
`start = delta_start`; the first tuple's deltas are taken as absolute. -/
def tokensFrom : List Nat → Option (Nat × Nat) → List SemanticToken
  | deltaLine :: deltaStart :: len :: tokType :: tokMods :: rest, prev =>
    let pos : Nat × Nat :=
      match prev with
      | some (lastLine, lastStart) =>
        (lastLine + deltaLine,
         if deltaLine == 0 then lastStart + deltaStart else deltaStart)
      | none => (deltaLine, deltaStart)
    { line := pos.1, start := pos.2, length := len, tokenType := tokType,
      tokenModifiers := tokMods } :: tokensFrom rest (some pos)
  | _, _ => []

/-- `SemanticTokens::tokens` : decode the full flat array, starting with no
previous state (`prev: None`). -/
def semanticTokensOf (data : List Nat) : List SemanticToken :=
  tokensFrom data none

/-- Helper `encode_tokens` from the test module of `lsp_store/semantic_tokens.rs`,
generalized over the running `prev_line`/`prev_start` accumulator:
`delta_line = line - prev_line`, and `delta_start = start - prev_start` when
`delta_line == 0`, else the absolute `start`.  Rust `u32` subtraction panics on
underflow; under the monotonicity hypothesis of C3 no underflow occurs, so the
truncating `Nat` subtraction agrees with the source. -/
def encodeFrom (prevLine prevStart : Nat) : List SemanticToken → List Nat
  | [] => []
  | t :: rest =>
    (t.line - prevLine) ::
      (if t.line - prevLine == 0 then t.start - prevStart else t.start) ::
      t.length :: t.tokenType :: t.tokenModifiers :: encodeFrom t.line t.start rest

/-- `encode_tokens` proper: the accumulator starts at `prev_line = 0`,
`prev_start = 0`. -/
def encodeTokens (tokens : List SemanticToken) : List Nat :=
  encodeFrom 0 0 tokens

/-- Lexicographic non-decreasing order on `(line, start)` pairs, the
monotonicity invariant of the wire format. -/
def lexLE (a b : Nat × Nat) : Prop :=
  a.1 < b.1 ∨ (a.1 = b.1 ∧ a.2 ≤ b.2)

instance (a b : Nat × Nat) : Decidable (lexLE a b) :=
  inferInstanceAs (Decidable (a.1 < b.1 ∨ (a.1 = b.1 ∧ a.2 ≤ b.2)))

/-- Round-trip for a suffix of the stream: if the previous absolute position
`prev` together with the remaining tokens is `lexLE`-sorted, then decoding the
delta-encoding of the suffix (with `prev` as the iterator state) gives back the
suffix. -/
theorem tokensFrom_encodeFrom (ts : List SemanticToken) :
    ∀ prev : Nat × Nat,
      List.Chain' lexLE (prev :: ts.map fun t => (t.line, t.start)) →
      tokensFrom (encodeFrom prev.1 prev.2 ts) (some prev) = ts := by
  induction ts with
  | nil => intro prev _; rfl
  | cons t rest ih =>
    intro prev hchain
    rw [List.map_cons, List.chain'_cons] at hchain
    obtain ⟨hpt, hrest⟩ := hchain
    have hline : prev.1 ≤ t.line := by
      rcases hpt with h | ⟨h, _⟩ <;> omega
    by_cases h0 : t.line - prev.1 = 0
    · have h1 : prev.1 = t.line := by omega
      have h2 : prev.2 ≤ t.start := by
        rcases hpt with h | ⟨_, h⟩ <;> omega
      simp only [encodeFrom, h0, tokensFrom, beq_self_eq_true, if_true]
      refine List.cons_eq_cons.mpr ⟨?_, ?_⟩
      · show SemanticToken.mk (prev.1 + 0) (prev.2 + (t.start - prev.2)) _ _ _ = t
        have : prev.1 + 0 = t.line := by omega
        have : prev.2 + (t.start - prev.2) = t.start := by omega
        cases t
        simp_all
      · rw [show prev.1 + 0 = t.line by omega,
          show prev.2 + (t.start - prev.2) = t.start by omega]
        exact ih (t.line, t.start) hrest
    · have hne : (t.line - prev.1 == 0) = false := by
        simp [Nat.sub_eq_zero_iff_le]; omega
      simp only [encodeFrom, tokensFrom, hne, if_false, Bool.false_eq_true]
      refine List.cons_eq_cons.mpr ⟨?_, ?_⟩
      · show SemanticToken.mk (prev.1 + (t.line - prev.1)) t.start _ _ _ = t
        have : prev.1 + (t.line - prev.1) = t.line := by omega
        cases t
        simp_all
      · rw [show prev.1 + (t.line - prev.1) = t.line by omega]
        exact ih (t.line, t.start) hrest

/-- C3: for every sequence of absolute tokens whose `(line, start)` positions are
non-decreasing in lexicographic order, delta-encoding (`encode_tokens`) and then
decoding through `SemanticTokens::tokens()` reproduces the original sequence
exactly. -/
theorem encode_decode_roundtrip (ts : List SemanticToken)
    (hmono : List.Chain' lexLE (ts.map fun t => (t.line, t.start))) :
    semanticTokensOf (encodeTokens ts) = ts := by
  cases ts with
  | nil => rfl
  | cons t rest =>
    rw [List.map_cons] at hmono
    show tokensFrom (encodeFrom 0 0 (t :: rest)) none = t :: rest
    simp only [encodeFrom, tokensFrom, Nat.sub_zero, ite_self]
    refine List.cons_eq_cons.mpr ⟨?_, ?_⟩
    · cases t; rfl
    · exact tokensFrom_encodeFrom rest (t.line, t.start) hmono

/-- C3 witness: the round-trip theorem applied to the concrete token sequence of
`test_delta_encoding_decoding_roundtrip`. -/
theorem encode_decode_roundtrip_witness :
    List.Chain' lexLE
      (([⟨0, 5, 3, 1, 0⟩, ⟨0, 10, 4, 2, 1⟩, ⟨2, 3, 5, 1, 0⟩, ⟨2, 15, 3, 3, 2⟩,
         ⟨5, 0, 2, 1, 0⟩] : List SemanticToken).map fun t => (t.line, t.start)) ∧
    semanticTokensOf
        (encodeTokens
          [⟨0, 5, 3, 1, 0⟩, ⟨0, 10, 4, 2, 1⟩, ⟨2, 3, 5, 1, 0⟩, ⟨2, 15, 3, 3, 2⟩,
           ⟨5, 0, 2, 1, 0⟩]) =
      [⟨0, 5, 3, 1, 0⟩, ⟨0, 10, 4, 2, 1⟩, ⟨2, 3, 5, 1, 0⟩, ⟨2, 15, 3, 3, 2⟩,
       ⟨5, 0, 2, 1, 0⟩] :=
  ⟨by norm_num [List.chain'_cons, List.chain_cons, lexLE],
   encode_decode_roundtrip _ (by norm_num [List.chain'_cons, List.chain_cons, lexLE])⟩

/-! ## Partial edits (`SemanticTokens::apply`) -/

/-- Modelled from the spec: `lsp_command::SemanticTokensEdit` lives outside the
provided sources; per the spec's wire-format contract the edit-splice format is
`{start, deleteCount, data}`, all expressed in 5-tuple element units. -/
structure SemanticTokensEdit where
  start : Nat
  deleteCount : Nat
  data : List Nat
  deriving DecidableEq, Repr

/-- Rust `Vec::splice(start..end, replacement)` with `end = start + delete_count`,
as called by `SemanticTokens::apply`: replaces the elements at indices
`start..end` by the replacement elements; panics (modelled as `none`) when the
range end exceeds the vector length. -/
def vecSplice (data : List Nat) (e : SemanticTokensEdit) : Option (List Nat) :=
  if e.start + e.deleteCount ≤ data.length then
    some (data.take e.start ++ e.data ++ data.drop (e.start + e.deleteCount))
  else none

/-- `SemanticTokens::apply` (`lsp_store/semantic_tokens.rs`): `for edit in edits`
splices each edit in turn into the current (already partially edited) flat
array; a panicking splice aborts the whole application (`none`). -/
def applyEdits : List Nat → List SemanticTokensEdit → Option (List Nat)
  | data, [] => some data
  | data, e :: rest =>
    match vecSplice data e with
    | some d => applyEdits d rest
    | none => none

/-- C10: `SemanticTokens::apply` processes edits strictly left to right, each one
splicing the current array (first conjunct); a splice panics exactly when
`start + deleteCount` exceeds the current length (second conjunct); and under
that precondition it replaces exactly `deleteCount` elements at `start` with the
edit's data, leaving every element outside the spliced range unchanged in
shifted position (third conjunct). -/
theorem apply_edit_spec (data : List Nat) (e : SemanticTokensEdit)
    (edits : List SemanticTokensEdit) :
    (applyEdits data (e :: edits) =
      (vecSplice data e).bind fun d => applyEdits d edits) ∧
    (vecSplice data e = none ↔ data.length < e.start + e.deleteCount) ∧
    (e.start + e.deleteCount ≤ data.length →
      ∃ d, vecSplice data e = some d ∧
        d.length = data.length - e.deleteCount + e.data.length ∧
        (∀ i, i < e.start → d[i]? = data[i]?) ∧
        (∀ j, j < e.data.length → d[e.start + j]? = e.data[j]?) ∧
        (∀ j, d[e.start + e.data.length + j]? = data[e.start + e.deleteCount + j]?)) := by
  refine ⟨?_, ?_, ?_⟩
  · cases h : vecSplice data e <;> simp [applyEdits, h]
  · unfold vecSplice
    split
    · exact iff_of_false (by simp) (by omega)
    · exact iff_of_true rfl (by omega)
  · intro h
    have htake : (data.take e.start).length = e.start := by
      rw [List.length_take]; omega
    refine ⟨_, by unfold vecSplice; rw [if_pos h], ?_, ?_, ?_, ?_⟩
    · simp only [List.length_append, List.length_take, List.length_drop]
      omega
    · intro i hi
      rw [List.getElem?_append_left (by simp only [List.length_append, htake]; omega),
        List.getElem?_append_left (by rw [htake]; exact hi),
        List.getElem?_take_of_lt hi]
    · intro j hj
      rw [List.getElem?_append_left (by simp only [List.length_append, htake]; omega),
        List.getElem?_append_right (by rw [htake]; omega), htake]
      congr 1
      omega
    · intro j
      rw [List.getElem?_append_right (by simp only [List.length_append, htake]; omega),
        List.getElem?_drop]
      congr 1
      simp only [List.length_append, htake]
      omega

/-- C10 witness: the splice specification at the concrete array
`[10, 11, 12, 13, 14]` with the edit `{start: 1, deleteCount: 2, data: [97, 98, 99]}`. -/
theorem apply_edit_spec_witness :
    (1 + 2 ≤ 5) ∧
    (∃ d, vecSplice [10, 11, 12, 13, 14] ⟨1, 2, [97, 98, 99]⟩ = some d ∧
      d.length = 5 - 2 + 3 ∧
      (∀ i, i < 1 → d[i]? = [10, 11, 12, 13, 14][i]?) ∧
      (∀ j, j < 3 → d[1 + j]? = [97, 98, 99][j]?) ∧
      (∀ j, d[1 + 3 + j]? = [10, 11, 12, 13, 14][1 + 2 + j]?)) :=
  ⟨by decide,
   (apply_edit_spec [10, 11, 12, 13, 14] ⟨1, 2, [97, 98, 99]⟩ []).2.2 (by decide)⟩

/-! ## Refresh failure bookkeeping (`semantic_highlighting.rs`) -/

/-- `SemanticHighlightingState.failure_counts` (`HashMap<BufferId, u32>`),
modelled as an association list from buffer id to count; a well-formed map has
pairwise distinct keys. -/
abbrev FailureCounts := List (Nat × Nat)

/-- `SemanticHighlightingState::record_failure`:
`let count = self.failure_counts.entry(buffer_id).or_insert(0); *count += 1` —
increment the buffer's entry, inserting it at 1 when absent. -/
def recordFailure : FailureCounts → Nat → FailureCounts
  | [], bufferId => [(bufferId, 1)]
  | (k, v) :: rest, bufferId =>
    if k = bufferId then (k, v + 1) :: rest else (k, v) :: recordFailure rest bufferId

/-- `SemanticHighlightingState::clear_failure`:
`self.failure_counts.remove(&buffer_id)`. -/
def clearFailure : FailureCounts → Nat → FailureCounts
  | [], _ => []
  | (k, v) :: rest, bufferId =>
    if k = bufferId then rest else (k, v) :: clearFailure rest bufferId

/-- `SemanticHighlightingState::failure_count`:
`self.failure_counts.get(&buffer_id).copied().unwrap_or(0)`. -/
def failureCount (m : FailureCounts) (bufferId : Nat) : Nat :=
  match m.lookup bufferId with
  | some c => c
  | none => 0

/-- `SemanticHighlightingState::should_skip_buffer`:
`self.failure_count(buffer_id) >= 3`. -/
def shouldSkipBuffer (m : FailureCounts) (bufferId : Nat) : Bool :=
  decide (3 ≤ failureCount m bufferId)

/-- One `record_failure` call increments the recorded count by exactly one. -/
theorem failureCount_recordFailure (m : FailureCounts) (b : Nat) :
    failureCount (recordFailure m b) b = failureCount m b + 1 := by
  induction m with
  | nil => simp [recordFailure, failureCount, List.lookup]
  | cons kv rest ih =>
    obtain ⟨k, v⟩ := kv
    by_cases hk : k = b
    · subst hk
      simp [recordFailure, failureCount, List.lookup]
    · have hbk : (b == k) = false := by simp [Ne.symm hk]
      simp [recordFailure, failureCount, List.lookup, hk, hbk] at ih ⊢
      exact ih

/-- Lookup misses when the key is absent from the association list. -/
theorem lookup_eq_none_of_not_key (m : FailureCounts) (b : Nat)
    (h : b ∉ m.map Prod.fst) : m.lookup b = none := by
  induction m with
  | nil => rfl
  | cons kv rest ih =>
    obtain ⟨k, v⟩ := kv
    rw [List.map_cons, List.mem_cons] at h
    push_neg at h
    have hbk : (b == k) = false := by simp [h.1]
    simp only [List.lookup, hbk]
    exact ih h.2

/-- With pairwise distinct keys, `clear_failure` removes the buffer's entry. -/
theorem lookup_clearFailure_self (m : FailureCounts) (b : Nat)
    (hkeys : (m.map Prod.fst).Nodup) : (clearFailure m b).lookup b = none := by
  induction m with
  | nil => rfl
  | cons kv rest ih =>
    obtain ⟨k, v⟩ := kv
    rw [List.map_cons, List.nodup_cons] at hkeys
    by_cases hk : k = b
    · subst hk
      simp only [clearFailure, if_pos rfl]
      exact lookup_eq_none_of_not_key rest k hkeys.1
    · have hbk : (b == k) = false := by simp [Ne.symm hk]
      simp only [clearFailure, if_neg hk, List.lookup, hbk]
      exact ih hkeys.2

/-- `clear_failure` for one buffer leaves every other buffer's count unchanged. -/
theorem failureCount_clearFailure_other (m : FailureCounts) (b bOther : Nat)
    (hne : bOther ≠ b) :
    failureCount (clearFailure m b) bOther = failureCount m bOther := by
  induction m with
  | nil => simp [clearFailure]
  | cons kv rest ih =>
    obtain ⟨k, v⟩ := kv
    by_cases hk : k = b
    · subst hk
      have : (bOther == k) = false := by simp [hne]
      simp [clearFailure, failureCount, List.lookup, this]
    · by_cases hk' : bOther = k
      · subst hk'
        simp [clearFailure, hk, failureCount, List.lookup]
      · have hbk : (bOther == k) = false := by simp [hk']
        simp [clearFailure, hk, failureCount, List.lookup, hbk] at ih ⊢
        exact ih

/-- C5: starting from a state with no recorded failures for a buffer, three
consecutive `record_failure` calls make `should_skip_buffer` return true for it;
and from any well-formed state (a `HashMap` has pairwise distinct keys), one
`clear_failure` call resets that buffer's `failure_count` to zero and
`should_skip_buffer` to false, while leaving every other buffer's failure count
unchanged. -/
theorem failure_suppression (s sAny : FailureCounts) (b bOther : Nat)
    (h0 : failureCount s b = 0)
    (hkeys : (sAny.map Prod.fst).Nodup)
    (hne : bOther ≠ b) :
    shouldSkipBuffer (recordFailure (recordFailure (recordFailure s b) b) b) b = true ∧
    failureCount (clearFailure sAny b) b = 0 ∧
    shouldSkipBuffer (clearFailure sAny b) b = false ∧
    failureCount (clearFailure sAny b) bOther = failureCount sAny bOther := by
  have hclear : failureCount (clearFailure sAny b) b = 0 := by
    unfold failureCount
    rw [lookup_clearFailure_self sAny b hkeys]
  refine ⟨?_, hclear, ?_, failureCount_clearFailure_other sAny b bOther hne⟩
  · unfold shouldSkipBuffer
    rw [failureCount_recordFailure, failureCount_recordFailure,
      failureCount_recordFailure, h0]
    decide
  · unfold shouldSkipBuffer
    rw [hclear]
    decide

/-- C5 witness: the failure-suppression theorem at the empty starting state, the
two-buffer state `[(1, 5), (2, 2)]`, buffer 1, and other buffer 2. -/
theorem failure_suppression_witness :
    (failureCount [] 1 = 0 ∧
      ((([(1, 5), (2, 2)] : FailureCounts).map Prod.fst).Nodup) ∧ (2 : Nat) ≠ 1) ∧
    (shouldSkipBuffer (recordFailure (recordFailure (recordFailure [] 1) 1) 1) 1 = true ∧
      failureCount (clearFailure [(1, 5), (2, 2)] 1) 1 = 0 ∧
      shouldSkipBuffer (clearFailure [(1, 5), (2, 2)] 1) 1 = false ∧
      failureCount (clearFailure [(1, 5), (2, 2)] 1) 2 = failureCount [(1, 5), (2, 2)] 2) :=
  ⟨⟨by decide, by decide, by decide⟩,
   failure_suppression [] [(1, 5), (2, 2)] 1 2 (by decide) (by decide) (by decide)⟩

/-! ## Rainbow color cache (`rainbow.rs`) -/

/-- `FNV_OFFSET` constant from `rainbow.rs`. -/
def FNV_OFFSET : Nat := 14695981039346656037

/-- `FNV_PRIME` constant from `rainbow.rs`. -/
def FNV_PRIME : Nat := 1099511628211

/-- `GOLDEN_RATIO_MULTIPLIER` constant from `rainbow.rs`. -/
def GOLDEN_RATIO_MULTIPLIER : Nat := 11400714819323198485

/-- `hash_identifier` (`rainbow.rs`): byte-wise FNV-1a fold over the identifier's
UTF-8 bytes; the `u64` xor and `wrapping_mul` are modelled on `Nat` with an
explicit reduction modulo `2 ^ 64 = 18446744073709551616`. -/
def hash_identifier (bytes : List Nat) : Nat :=
  bytes.foldl (fun hash byte => (hash ^^^ byte) * FNV_PRIME % 18446744073709551616)
    FNV_OFFSET

/-- `calculate_color_index` (`rainbow.rs`): Fibonacci multiply (wrapping, hence
`% 2 ^ 64`) then reduce modulo the palette size; the Rust `%` operator panics on
a zero divisor, modelled as `none`. -/
def calculate_color_index (hash paletteSize : Nat) : Option Nat :=
  if paletteSize = 0 then none
  else some (hash * GOLDEN_RATIO_MULTIPLIER % 18446744073709551616 % paletteSize)

/-- ASCII decimal digits of `n`, most significant first (the digits produced by
Rust's `format!("{}", n)`); structural recursion on a fuel argument bounding the
digit count so that the definition reduces by evaluation. -/
def decimalBytesAux : Nat → Nat → List Nat
  | 0, _ => []
  | fuel + 1, n =>
    if n < 10 then [48 + n] else decimalBytesAux fuel (n / 10) ++ [48 + n % 10]

/-- ASCII decimal representation of `n` (fuel `n + 1` strictly exceeds the digit
count). -/
def decimalBytes (n : Nat) : List Nat :=
  decimalBytesAux (n + 1) n

/-- UTF-8 bytes of `format!("identifier_{}", i)`, the identifiers of the
distribution scenario (the leading bytes spell `identifier_`). -/
def identifierBytes (i : Nat) : List Nat :=
  [105, 100, 101, 110, 116, 105, 102, 105, 101, 114, 95] ++ decimalBytes i

/-- Increment the `b`-th entry of a list of counters. -/
def bumpCount : List Nat → Nat → List Nat
  | [], _ => []
  | c :: rest, 0 => (c + 1) :: rest
  | c :: rest, b + 1 => c :: bumpCount rest b

/-- Bucket tallies of the scenario of `test_fibonacci_hash_uniform_distribution`:
hash `identifier_0  ..  identifier_1199` and reduce each hash into 12 buckets. -/
def rainbowBucketCounts : List Nat :=
  (List.range 1200).foldl
    (fun counts i =>
      match calculate_color_index (hash_identifier (identifierBytes i)) 12 with
      | some b => bumpCount counts b
      | none => counts)
    (List.replicate 12 0)

set_option maxRecDepth 100000 in
/-- C8: hashing the 1200 identifiers `identifier_0` through `identifier_1199`
with the byte-wise fold hash and reducing via the Fibonacci golden-ratio
multiply-then-mod scheme into 12 buckets assigns strictly more than 50
identifiers to every one of the 12 buckets (and all 1200 land in a bucket). -/
theorem rainbow_distribution :
    rainbowBucketCounts.length = 12 ∧
    (rainbowBucketCounts.all fun c => decide (50 < c)) = true ∧
    rainbowBucketCounts.sum = 1200 := by
  refine ⟨?_, ?_, ?_⟩ <;> rfl

/-- `VariableColorMode` (`editor_settings`): the two color generation strategies. -/
inductive VariableColorMode where
  | ThemePalette
  | DynamicHSL
  deriving DecidableEq, Repr

/-- `Hsla` color (`gpui`, an external collaborator).  `f32` components are
embedded as rationals; no theorem in this file inspects a concrete component
value produced by floating-point code. -/
structure Hsla where
  h : Rat
  s : Rat
  l : Rat
  a : Rat
  deriving DecidableEq, Repr

/-- `HighlightStyle` (`gpui`), reduced to the single field this core constructs
and reads; `HighlightStyle::default()` has `color: None`. -/
structure HighlightStyle where
  color : Option Hsla := none
  deriving DecidableEq, Repr

/-- `SyntaxTheme` (`theme`, an external collaborator), reduced to the three
capabilities this core consumes: `get_opt`, `rainbow_palette_size` and
`rainbow_color`. -/
structure SyntaxTheme where
  getOpt : String → Option HighlightStyle
  rainbowPaletteSize : Nat
  rainbowColor : Nat → Option HighlightStyle

/-- Modelled from the spec: `hash_to_hue` divides the Fibonacci-distributed hash
by `u64::MAX` in `f32` ("normalized to [0,1) as hue"); the `f32` rounding of
`rainbow.rs`'s division is outside the embedding, so the exact rational
quotient stands in.  No theorem depends on this value. -/
def hash_to_hue (hash : Nat) : Rat :=
  (hash * GOLDEN_RATIO_MULTIPLIER % 18446744073709551616 : Nat) /
    ((2 : Rat) ^ 64 - 1)

/-- Stand-in for `gpui::rgb(0xa6e3a1).into()`, the fixed fallback color of
`generate_color_without_cache`; the rgb-to-hsla conversion is floating-point
code in the external `gpui` crate, and no theorem depends on this value. -/
def defaultRainbowColor : Hsla :=
  { h := 127 / 396, s := 33 / 61, l := 194 / 255, a := 1 }

/-- `VariableColorCache` (`rainbow.rs`): the `DashMap<u64, Hsla>` is modelled as
an association list from hash to color. -/
structure VariableColorCache where
  colors : List (Nat × Hsla)
  mode : VariableColorMode
  maxEntries : Nat := 120000

/-- `VariableColorCache::generate_color_without_cache` (`rainbow.rs`): in
theme-palette mode pick the palette slot via `calculate_color_index` (which
panics on an empty palette, propagated as `none`) and fall back to the fixed
default color when the slot has no assigned color; in dynamic-HSL mode build an
`Hsla` from the hashed hue with s = 0.70, l = 0.65, a = 1.0. -/
def generate_color_without_cache (mode : VariableColorMode) (hash : Nat)
    (theme : SyntaxTheme) : Option HighlightStyle :=
  match mode with
  | .ThemePalette =>
    match calculate_color_index hash theme.rainbowPaletteSize with
    | none => none
    | some index =>
      let color :=
        match theme.rainbowColor index with
        | some style =>
          match style.color with
          | some c => c
          | none => defaultRainbowColor
        | none => defaultRainbowColor
      some { color := some color }
  | .DynamicHSL =>
    some { color := some { h := hash_to_hue hash, s := 7 / 10, l := 13 / 20, a := 1 } }

/-- `VariableColorCache::get_or_insert_by_hash` (`rainbow.rs`): on a hit return
the stored color wrapped as a style; on a miss generate a color (the capacity
check only logs a warning and changes nothing), store it, and return the style.
The result pairs the returned style with the updated color map; `none` is the
propagated panic of an empty-palette reduction. -/
def get_or_insert_by_hash (cache : VariableColorCache) (hash : Nat)
    (theme : SyntaxTheme) : Option (HighlightStyle × VariableColorCache) :=
  match cache.colors.lookup hash with
  | some entry => some ({ color := some entry }, cache)
  | none =>
    match generate_color_without_cache cache.mode hash theme with
    | none => none
    | some style =>
      match style.color with
      | some color =>
        some (style, { cache with colors := (hash, color) :: cache.colors })
      | none => some (style, cache)

/-- `VariableColorCache::get_or_insert` (`rainbow.rs`): hash the identifier's
bytes and defer to `get_or_insert_by_hash`. -/
def get_or_insert (cache : VariableColorCache) (identifier : List Nat)
    (theme : SyntaxTheme) : Option (HighlightStyle × VariableColorCache) :=
  get_or_insert_by_hash cache (hash_identifier identifier) theme

/-- Every style `generate_color_without_cache` returns carries a color. -/
theorem generate_color_without_cache_color (mode : VariableColorMode) (hash : Nat)
    (theme : SyntaxTheme) (style : HighlightStyle)
    (hg : generate_color_without_cache mode hash theme = some style) :
    style.color.isSome = true := by
  unfold generate_color_without_cache at hg
  split at hg
  · split at hg
    · exact absurd hg (by simp)
    · cases hg; rfl
  · cases hg; rfl

/-- Every style `get_or_insert_by_hash` returns carries a color. -/
theorem get_or_insert_by_hash_color (cache : VariableColorCache) (hash : Nat)
    (theme : SyntaxTheme) (p : HighlightStyle × VariableColorCache)
    (hp : get_or_insert_by_hash cache hash theme = some p) :
    p.1.color.isSome = true := by
  unfold get_or_insert_by_hash at hp
  split at hp
  · cases hp; rfl
  · split at hp
    · exact absurd hp (by simp)
    · rename_i style hg
      split at hp
      · rename_i color hcolor
        cases hp
        simp [hcolor]
      · rename_i hcolor
        cases hp
        have hc := generate_color_without_cache_color cache.mode hash theme _ hg
        rw [hcolor] at hc
        simp at hc

/-- C9: in theme-palette mode `get_or_insert` is total only when the theme's
rainbow palette size is positive.  First conjunct: on a cache miss with a
zero palette size the call panics (remainder by zero, modelled as `none`).
Second conjunct: whenever the palette size is positive the call never panics,
in either color mode.  Third conjunct: any palette index the reduction
computes is strictly less than the palette size, so the out-of-range branch is
unreachable under the precondition. -/
theorem get_or_insert_palette_totality (cache : VariableColorCache) (hash : Nat)
    (theme : SyntaxTheme) :
    (cache.mode = .ThemePalette → cache.colors.lookup hash = none →
      theme.rainbowPaletteSize = 0 →
      get_or_insert_by_hash cache hash theme = none) ∧
    (0 < theme.rainbowPaletteSize →
      (get_or_insert_by_hash cache hash theme).isSome = true) ∧
    (∀ i, calculate_color_index hash theme.rainbowPaletteSize = some i →
      i < theme.rainbowPaletteSize) := by
  refine ⟨?_, ?_, ?_⟩
  · intro hmode hmiss hzero
    unfold get_or_insert_by_hash
    rw [hmiss]
    unfold generate_color_without_cache
    rw [hmode]
    unfold calculate_color_index
    rw [hzero]
    rfl
  · intro hpos
    unfold get_or_insert_by_hash
    cases hl : cache.colors.lookup hash with
    | some entry => rfl
    | none =>
      unfold generate_color_without_cache
      cases hm : cache.mode with
      | ThemePalette =>
        unfold calculate_color_index
        rw [if_neg (by omega)]
        rfl
      | DynamicHSL => rfl
  · intro i hi
    unfold calculate_color_index at hi
    by_cases hz : theme.rainbowPaletteSize = 0
    · rw [if_pos hz] at hi; cases hi
    · rw [if_neg hz] at hi
      cases hi
      exact Nat.mod_lt _ (by omega)

/-- C9 witness: the totality theorem applied at hash 0 with an empty
theme-palette cache, once against a palette of size 0 (panic) and once against
a palette of size 12 (total, and the computed index is below 12). -/
theorem get_or_insert_palette_totality_witness :
    (get_or_insert_by_hash ⟨[], .ThemePalette, 120000⟩ 0
        ⟨fun _ => none, 0, fun _ => none⟩ = none) ∧
    ((get_or_insert_by_hash ⟨[], .ThemePalette, 120000⟩ 0
        ⟨fun _ => none, 12, fun _ => none⟩).isSome = true) ∧
    (∀ i, calculate_color_index 0 12 = some i → i < 12) :=
  ⟨(get_or_insert_palette_totality ⟨[], .ThemePalette, 120000⟩ 0
      ⟨fun _ => none, 0, fun _ => none⟩).1 rfl rfl rfl,
   (get_or_insert_palette_totality ⟨[], .ThemePalette, 120000⟩ 0
      ⟨fun _ => none, 12, fun _ => none⟩).2.1 (by norm_num),
   (get_or_insert_palette_totality ⟨[], .ThemePalette, 120000⟩ 0
      ⟨fun _ => none, 12, fun _ => none⟩).2.2⟩

/-! ## Token style resolver (`crates/editor/src/semantic_tokens.rs`) -/

/-- `RainbowTokenType` (`editor_settings`): the token classes eligible for a
rainbow override. -/
inductive RainbowTokenType where
  | Parameter
  | Variable
  | Property
  deriving DecidableEq, Repr

/-- `RainbowConfig` (`editor_settings`): enabled flag plus eligible classes. -/
structure RainbowConfig where
  enabled : Bool
  tokenTypes : List RainbowTokenType

/-- `lsp::SemanticTokensLegend`: the server's ordered type and modifier name
lists. -/
structure SemanticTokensLegend where
  tokenTypes : List String
  tokenModifiers : List String

/-- `SemanticTokenStylizer` (`crates/editor/src/semantic_tokens.rs`). -/
structure SemanticTokenStylizer where
  tokenTypes : List String
  modifierMask : List (String × Nat)
  rainbowEnabled : Bool
  rainbowTokenTypes : List RainbowTokenType

/-- `SemanticTokenStylizer::new`: copy the legend's type list and build the
modifier-mask map `modifier name ↦ 1 << index` (the `HashMap` is modelled as an
association list in legend order). -/
def SemanticTokenStylizer.new (legend : SemanticTokensLegend)
    (config : RainbowConfig) : SemanticTokenStylizer where
  tokenTypes := legend.tokenTypes
  modifierMask := legend.tokenModifiers.enum.map fun p => (p.2, 1 <<< p.1)
  rainbowEnabled := config.enabled
  rainbowTokenTypes := config.tokenTypes

/-- `SemanticTokenStylizer::has_modifier`: look the modifier name up in the mask
map (`false` when absent) and test the token's bitmask against the mask. -/
def hasModifier (st : SemanticTokenStylizer) (tokenModifiers : Nat)
    (modifier : String) : Bool :=
  match st.modifierMask.lookup modifier with
  | none => false
  | some mask => decide (tokenModifiers &&& mask ≠ 0)

/-- The fixed, order-sensitive table of theme lookup-key fallback chains from
`SemanticTokenStylizer::convert`; nested conditionals mirror the source's match
arms together with their guards, top to bottom.  `none` is the wildcard arm
(`return None`). -/
def themeKeyChains (token : String) (hasMod : String → Bool) :
    Option (List String) :=
  if token = "namespace" then some ["namespace", "module", "type"]
  else if token = "class" then
    some ["type.class.definition", "type.definition", "type.class", "class", "type"]
  else if token = "enum" then
    if hasMod "declaration" || hasMod "definition" then
      some ["type.enum.definition", "type.definition", "type.enum", "enum", "type"]
    else some ["type.enum", "enum", "type"]
  else if token = "interface" then
    if hasMod "declaration" || hasMod "definition" then
      some ["type.interface.definition", "type.definition", "type.interface",
        "interface", "type"]
    else some ["type.interface", "interface", "type"]
  else if token = "struct" then
    if hasMod "declaration" || hasMod "definition" then
      some ["type.struct.definition", "type.definition", "type.struct", "struct",
        "type"]
    else some ["type.struct", "struct", "type"]
  else if token = "typeParameter" then
    if hasMod "declaration" || hasMod "definition" then
      some ["type.parameter.definition", "type.definition", "type.parameter", "type"]
    else some ["type.parameter", "type"]
  else if token = "type" then
    if hasMod "declaration" || hasMod "definition" then
      some ["type.definition", "type"]
    else some ["type"]
  else if token = "parameter" then some ["parameter"]
  else if token = "variable" then
    if hasMod "defaultLibrary" then
      if hasMod "constant" then some ["constant.builtin", "constant"]
      else some ["variable.builtin", "variable"]
    else if hasMod "constant" then some ["constant"]
    else some ["variable"]
  else if token = "const" then some ["const", "constant", "variable"]
  else if token = "property" then some ["property"]
  else if token = "enumMember" then some ["type.enum.member", "type.enum", "variant"]
  else if token = "decorator" then some ["function.decorator", "function.annotation"]
  else if token = "function" then
    if hasMod "defaultLibrary" then some ["function.builtin", "function"]
    else some ["function"]
  else if token = "method" then
    if hasMod "defaultLibrary" then
      some ["function.builtin", "function.method", "function"]
    else some ["function.method", "function"]
  else if token = "macro" then some ["function.macro", "function"]
  else if token = "label" then some ["label"]
  else if token = "comment" then
    if hasMod "documentation" then
      some ["comment.documentation", "comment.doc", "comment"]
    else some ["comment"]
  else if token = "string" then some ["string"]
  else if token = "keyword" then some ["keyword"]
  else if token = "number" then some ["number"]
  else if token = "regexp" then some ["string.regexp", "string"]
  else if token = "operator" then some ["operator"]
  else if token = "modifier" then some ["keyword.modifier"]
  else if token = "event" then some ["type.event", "type"]
  else if token = "lifetime" then some ["symbol", "type.parameter", "type"]
  else none

/-- The theme-lookup loop at the end of `convert`: return the first chain entry
whose theme style carries an explicit color. -/
def themeChoice (theme : SyntaxTheme) (cs : List String) : Option HighlightStyle :=
  cs.findSome? fun choice =>
    match theme.getOpt choice with
    | some style => if style.color.isSome then some style else none
    | none => none

/-- `SemanticTokenStylizer::apply_rainbow`: needs both a cache and a theme (else
no rainbow style), resolves the token's source text through the color cache and
yields the style only when it carries a real color.  The identifier argument is
the text the source extracts via `buffer.text_for_range(range)` (the rope is an
external collaborator), as UTF-8 bytes.  The outer `Option` propagates the
cache's panic; the inner one is the rainbow result. -/
def apply_rainbow (cache : Option VariableColorCache) (theme : Option SyntaxTheme)
    (identifier : List Nat) : Option (Option HighlightStyle) :=
  match cache with
  | none => some none
  | some c =>
    match theme with
    | none => some none
    | some th =>
      match get_or_insert c identifier th with
      | none => none
      | some (style, _) =>
        match style.color with
        | some _ => some (some style)
        | none => some none

/-- The `should_apply_rainbow` test inside `SemanticTokenStylizer::convert`:
does any configured rainbow class match this token (variable tokens must carry
neither the `defaultLibrary` nor the `constant` modifier)? -/
def shouldApplyRainbow (st : SemanticTokenStylizer) (name : String)
    (hasMod : String → Bool) : Bool :=
  st.rainbowTokenTypes.any fun rt =>
    match rt with
    | .Parameter => name == "parameter"
    | .Variable =>
      name == "variable" && !(hasMod "defaultLibrary") && !(hasMod "constant")
    | .Property => name == "property"

/-- The tail of `SemanticTokenStylizer::convert` after the rainbow block: follow
the fallback chain for the token's class (`none` when no class matches), and
return the first theme style carrying a color, or the empty default style when
no chain entry resolves (also when there is no theme). -/
def convertFallback (theme : Option SyntaxTheme) (name : String)
    (hasMod : String → Bool) : Option HighlightStyle :=
  match themeKeyChains name hasMod with
  | none => none
  | some cs =>
    match theme with
    | some th =>
      match themeChoice th cs with
      | some style => some style
      | none => some {}
    | none => some {}

/-- `SemanticTokenStylizer::convert`: resolve the type index through the legend
(`none` entry ⇒ no style); when rainbow is enabled and a cache and theme are
present, test the eligible classes and return the rainbow style immediately
when one is produced; otherwise resolve through the fallback chains.  The
outer `Option` propagates the color cache's panic (`none`); the inner one is
the "no style" result. -/
def convert (st : SemanticTokenStylizer) (theme : Option SyntaxTheme)
    (tokenType modifiers : Nat) (identifier : List Nat)
    (cache : Option VariableColorCache) : Option (Option HighlightStyle) :=
  match st.tokenTypes.get? tokenType with
  | none => some none
  | some name =>
    let hasMod := fun m => hasModifier st modifiers m
    if st.rainbowEnabled && cache.isSome && theme.isSome then
      if shouldApplyRainbow st name hasMod then
        match apply_rainbow cache theme identifier with
        | none => none
        | some (some style) => some (some style)
        | some none => some (convertFallback theme name hasMod)
      else some (convertFallback theme name hasMod)
    else some (convertFallback theme name hasMod)

/-- Masks stored by `SemanticTokenStylizer::new` are single bits at positions
below the legend's modifier count (stated over `enumFrom` for the induction). -/
theorem modifierMask_lookup_shift (mods : List String) (k : Nat) (name : String)
    (mask : Nat)
    (h : ((mods.enumFrom k).map fun p => (p.2, 1 <<< p.1)).lookup name = some mask) :
    ∃ i, k ≤ i ∧ i < k + mods.length ∧ mask = 1 <<< i := by
  induction mods generalizing k with
  | nil => simp [List.enumFrom] at h
  | cons m rest ih =>
    simp only [List.enumFrom, List.map_cons] at h
    cases hb : (name == m) with
    | true =>
      simp only [List.lookup, hb] at h
      cases h
      exact ⟨k, Nat.le_refl k, by simp, rfl⟩
    | false =>
      simp only [List.lookup, hb] at h
      obtain ⟨i, hk, hlt, hm⟩ := ih (k + 1) h
      exact ⟨i, by omega, by simp only [List.length_cons]; omega, hm⟩

/-- `has_modifier` reads only the modifier bits that have legend entries: two
bitmasks agreeing on the first `legend.tokenModifiers.length` bits are
indistinguishable. -/
theorem hasModifier_congr (legend : SemanticTokensLegend) (config : RainbowConfig)
    (m m' : Nat)
    (hagree : ∀ i, i < legend.tokenModifiers.length → m.testBit i = m'.testBit i)
    (name : String) :
    hasModifier (SemanticTokenStylizer.new legend config) m name =
    hasModifier (SemanticTokenStylizer.new legend config) m' name := by
  unfold hasModifier
  cases hl : (SemanticTokenStylizer.new legend config).modifierMask.lookup name with
  | none => rfl
  | some mask =>
    obtain ⟨i, -, hlt, hm⟩ :=
      modifierMask_lookup_shift legend.tokenModifiers 0 name mask hl
    subst hm
    have h2 : (1 <<< i : Nat) = 2 ^ i := by
      rw [Nat.shiftLeft_eq, Nat.one_mul]
    rw [h2]
    have key : ∀ kk : Nat, (kk &&& 2 ^ i ≠ 0) ↔ kk.testBit i = true := by
      intro kk
      rw [Nat.and_two_pow]
      cases hb : kk.testBit i <;> simp [hb, Nat.pow_eq_zero]
    simp only [decide_eq_decide]
    rw [key, key, hagree i (by omega)]

/-- C7 counterexample: a set modifier bit with no legend entry does not make
`convert` yield "no style".  Legend type list `["variable"]`, empty modifier
list, token type 0 with modifier bitmask 1 (bit 0 set, no corresponding legend
entry): `convert` returns the empty default style, not `None`. -/
theorem convert_unknown_modifier_bit_styled :
    convert (SemanticTokenStylizer.new ⟨["variable"], []⟩ ⟨false, []⟩) none 0 1 []
        none = some (some { color := none }) ∧
    convert (SemanticTokenStylizer.new ⟨["variable"], []⟩ ⟨false, []⟩) none 0 1 []
        none ≠ some none := by
  refine ⟨by decide, by decide⟩

/-- C7 (amended): `convert` yields no style (inner `none`), rather than an error,
whenever the token's type index is not present in the legend's ordered type
list; a set bit of the modifier bitmask with no corresponding legend entry is
instead silently ignored — the token is styled exactly as if that bit were
absent (any two bitmasks agreeing on the legend-covered bits give the same
result), not suppressed. -/
theorem convert_legend_miss_behavior (legend : SemanticTokensLegend)
    (config : RainbowConfig) (theme : Option SyntaxTheme) (tokenType m m' : Nat)
    (identifier : List Nat) (cache : Option VariableColorCache) :
    (legend.tokenTypes.length ≤ tokenType →
      convert (SemanticTokenStylizer.new legend config) theme tokenType m
        identifier cache = some none) ∧
    ((∀ i, i < legend.tokenModifiers.length → m.testBit i = m'.testBit i) →
      convert (SemanticTokenStylizer.new legend config) theme tokenType m
        identifier cache =
      convert (SemanticTokenStylizer.new legend config) theme tokenType m'
        identifier cache) := by
  constructor
  · intro hlen
    have hnone : (SemanticTokenStylizer.new legend config).tokenTypes.get? tokenType
        = none := List.get?_eq_none.mpr hlen
    unfold convert
    rw [hnone]
  · intro hagree
    have hcong := hasModifier_congr legend config m m' hagree
    unfold convert
    cases hg : (SemanticTokenStylizer.new legend config).tokenTypes.get? tokenType with
    | none => rfl
    | some name => simp only [hcong]

/-- C7 witness: the amended theorem applied twice concretely — type index 5 is
out of range for the one-type legend (no style), and bitmask 2 (unknown bit 1
set) styles identically to bitmask 0 at type index 0. -/
theorem convert_legend_miss_behavior_witness :
    ((["variable"] : List String).length ≤ 5) ∧
    convert (SemanticTokenStylizer.new ⟨["variable"], ["defaultLibrary"]⟩ ⟨false, []⟩)
      none 5 2 [] none = some none ∧
    (∀ i, i < (["defaultLibrary"] : List String).length →
      (2 : Nat).testBit i = (0 : Nat).testBit i) ∧
    convert (SemanticTokenStylizer.new ⟨["variable"], ["defaultLibrary"]⟩ ⟨false, []⟩)
      none 0 2 [] none =
    convert (SemanticTokenStylizer.new ⟨["variable"], ["defaultLibrary"]⟩ ⟨false, []⟩)
      none 0 0 [] none :=
  ⟨by decide,
   (convert_legend_miss_behavior ⟨["variable"], ["defaultLibrary"]⟩ ⟨false, []⟩
      none 5 2 0 [] none).1 (by decide),
   by decide,
   (convert_legend_miss_behavior ⟨["variable"], ["defaultLibrary"]⟩ ⟨false, []⟩
      none 0 2 0 [] none).2 (by decide)⟩

/-- C6: for a token whose legend type name is `"variable"` and whose modifier
bitmask carries neither `defaultLibrary` nor `constant`, with rainbow enabled,
the variable class selected, and a color cache and theme supplied, whenever the
color cache yields a style `p.1` for the token's source text, `convert` returns
exactly that style, and it always carries a color — the theorem holds for every
theme, in particular one whose `get_opt "variable"` defines an explicit color,
so rainbow takes precedence over theme syntax classes. -/
theorem rainbow_precedence (st : SemanticTokenStylizer) (theme : SyntaxTheme)
    (cache : VariableColorCache) (tokenType modifiers : Nat)
    (identifier : List Nat) (p : HighlightStyle × VariableColorCache)
    (htype : st.tokenTypes.get? tokenType = some "variable")
    (hdl : hasModifier st modifiers "defaultLibrary" = false)
    (hconst : hasModifier st modifiers "constant" = false)
    (henabled : st.rainbowEnabled = true)
    (hsel : RainbowTokenType.Variable ∈ st.rainbowTokenTypes)
    (hget : get_or_insert cache identifier theme = some p) :
    convert st (some theme) tokenType modifiers identifier (some cache) =
      some (some p.1) ∧
    p.1.color.isSome = true := by
  obtain ⟨style, cachePost⟩ := p
  have hcolor : style.color.isSome = true :=
    get_or_insert_by_hash_color cache (hash_identifier identifier) theme _ hget
  refine ⟨?_, hcolor⟩
  have hshould : shouldApplyRainbow st "variable"
      (fun mm => hasModifier st modifiers mm) = true := by
    unfold shouldApplyRainbow
    rw [List.any_eq_true]
    refine ⟨.Variable, hsel, ?_⟩
    simp [hdl, hconst]
  have happ : apply_rainbow (some cache) (some theme) identifier =
      some (some style) := by
    unfold apply_rainbow
    dsimp only
    rw [hget]
    dsimp only
    obtain ⟨col, hcol⟩ := Option.isSome_iff_exists.mp hcolor
    rw [hcol]
  unfold convert
  rw [htype]
  simp only [henabled, hshould, happ, Option.isSome_some, Bool.true_and,
    Bool.and_true, Bool.and_self, if_true]

/-- Concrete theme for the rainbow-precedence witness: it defines an explicit
`"variable"` syntax color (which rainbow must beat) and a one-slot rainbow
palette carrying a different color. -/
def sampleTheme : SyntaxTheme where
  getOpt := fun s =>
    if s = "variable" then some { color := some ⟨1/2, 1/2, 1/2, 1⟩ } else none
  rainbowPaletteSize := 1
  rainbowColor := fun _ => some { color := some ⟨1/4, 1/4, 1/4, 1⟩ }

/-- C6 witness: the rainbow-precedence theorem at a concrete legend
`(["variable"], ["defaultLibrary", "constant"])`, enabled config selecting the
variable class, an empty theme-palette cache, identifier byte `[120]`, and
`sampleTheme` — whose `get_opt "variable"` defines an explicit color, yet the
cache-derived style is returned. -/
theorem rainbow_precedence_witness :
    (SemanticTokenStylizer.new ⟨["variable"], ["defaultLibrary", "constant"]⟩
        ⟨true, [.Variable]⟩).tokenTypes.get? 0 = some "variable" ∧
    (sampleTheme.getOpt "variable").isSome = true ∧
    ∃ p, get_or_insert ⟨[], .ThemePalette, 120000⟩ [120] sampleTheme = some p ∧
      convert (SemanticTokenStylizer.new ⟨["variable"], ["defaultLibrary", "constant"]⟩
          ⟨true, [.Variable]⟩) (some sampleTheme) 0 0 [120]
          (some ⟨[], .ThemePalette, 120000⟩) = some (some p.1) ∧
      p.1.color.isSome = true :=
  ⟨rfl, rfl,
   ⟨_, rfl,
    (rainbow_precedence
        (SemanticTokenStylizer.new ⟨["variable"], ["defaultLibrary", "constant"]⟩
          ⟨true, [.Variable]⟩)
        sampleTheme ⟨[], .ThemePalette, 120000⟩ 0 0 [120] _
        rfl (by decide) (by decide) rfl (by decide) rfl).1,
    (rainbow_precedence
        (SemanticTokenStylizer.new ⟨["variable"], ["defaultLibrary", "constant"]⟩
          ⟨true, [.Variable]⟩)
        sampleTheme ⟨[], .ThemePalette, 120000⟩ 0 0 [120] _
        rfl (by decide) (by decide) rfl (by decide) rfl).2⟩⟩

/-! ## Multibuffer token range queries (`crates/editor/src/semantic_tokens.rs`) -/

/-- `MultibufferSemanticToken`: a token re-anchored to multibuffer byte offsets;
`range` is the half-open byte range `(start, end)`. -/
structure MultibufferSemanticToken where
  range : Nat × Nat
  style : HighlightStyle
  lspType : Nat
  lspModifiers : Nat
  deriving DecidableEq, Repr

/-- The loop of the Rust standard library's `slice::binary_search_by` (as invoked
through `binary_search_by_key` in `tokens_in_range`): probe `left + size / 2`
where `size = right - left`, narrow the window on less/greater, return
`Ok(mid)` (`Sum.inl`) at the first equal probe, or `Err(left)` (`Sum.inr`) with
the insertion point once the window is empty.  The structural fuel argument
only bounds the iteration count (the window shrinks every round, so any
`fuel > right - left` is unreachable at zero). -/
def binarySearchLoop : Nat → List Nat → Nat → Nat → Nat → Nat ⊕ Nat
  | 0, _, _, left, _ => Sum.inr left
  | fuel + 1, keys, target, left, right =>
    if left < right then
      let mid := left + (right - left) / 2
      let k := keys.getD mid 0
      if k < target then binarySearchLoop fuel keys target (mid + 1) right
      else if target < k then binarySearchLoop fuel keys target left mid
      else Sum.inl mid
    else Sum.inr left

/-- `slice::binary_search_by_key` over the full key slice. -/
def binary_search_by_key (keys : List Nat) (target : Nat) : Nat ⊕ Nat :=
  binarySearchLoop (keys.length + 1) keys target 0 keys.length

/-- The index actually used by `tokens_in_range`:
`binary_search_by_key(..).unwrap_or_else(|next_ix| next_ix)`. -/
def searchIdx (keys : List Nat) (target : Nat) : Nat :=
  match binary_search_by_key keys target with
  | Sum.inl i => i
  | Sum.inr i => i

/-- `SemanticTokenBufferContainer::tokens_in_range`: binary-search the sorted
per-buffer token list for both endpoints of the half-open byte range `[a, b)`
and return the slice `tokens[start..end]`; Rust slicing panics (`none`) when
`start > end` or `end > len`. -/
def tokens_in_range (tokens : List MultibufferSemanticToken) (a b : Nat) :
    Option (List MultibufferSemanticToken) :=
  let keys := tokens.map fun t => t.range.1
  let s := searchIdx keys a
  let e := searchIdx keys b
  if s ≤ e ∧ e ≤ tokens.length then some ((tokens.take e).drop s) else none

/-- Specification of the binary-search loop on a non-decreasing key slice: an
`Ok` result points at an equal key inside the window; an `Err` result is the
insertion point, with everything left of it below the target and everything
right of it (in the window) above. -/
theorem binarySearchLoop_spec (keys : List Nat) (target : Nat)
    (hmono : ∀ i j, i ≤ j → j < keys.length →
      keys.getD i 0 ≤ keys.getD j 0) :
    ∀ fuel left right, left ≤ right → right - left < fuel → right ≤ keys.length →
      (match binarySearchLoop fuel keys target left right with
       | Sum.inl i => left ≤ i ∧ i < right ∧ keys.getD i 0 = target
       | Sum.inr i => left ≤ i ∧ i ≤ right ∧
           (∀ j, left ≤ j → j < i → keys.getD j 0 < target) ∧
           (∀ j, i ≤ j → j < right → target < keys.getD j 0)) := by
  intro fuel
  induction fuel with
  | zero => intro left right _ hf _; omega
  | succ fuel ih =>
    intro left right hll hf hr
    simp only [binarySearchLoop]
    by_cases hlr : left < right
    · rw [if_pos hlr]
      set mid := left + (right - left) / 2 with hmid
      have hmlt : mid < right := by omega
      have hmge : left ≤ mid := by omega
      by_cases h1 : keys.getD mid 0 < target
      · rw [if_pos h1]
        have := ih (mid + 1) right (by omega) (by omega) hr
        revert this
        cases binarySearchLoop fuel keys target (mid + 1) right with
        | inl i =>
          intro this
          exact ⟨by omega, this.2.1, this.2.2⟩
        | inr i =>
          intro this
          obtain ⟨hi1, hi2, hbelow, habove⟩ := this
          refine ⟨by omega, hi2, ?_, habove⟩
          intro j hj1 hj2
          by_cases hjm : j ≤ mid
          · exact Nat.lt_of_le_of_lt (hmono j mid hjm (by omega)) h1
          · exact hbelow j (by omega) hj2
      · rw [if_neg h1]
        by_cases h2 : target < keys.getD mid 0
        · rw [if_pos h2]
          have := ih left mid (by omega) (by omega) (by omega)
          revert this
          cases binarySearchLoop fuel keys target left mid with
          | inl i =>
            intro this
            exact ⟨this.1, by omega, this.2.2⟩
          | inr i =>
            intro this
            obtain ⟨hi1, hi2, hbelow, habove⟩ := this
            refine ⟨hi1, by omega, hbelow, ?_⟩
            intro j hj1 hj2
            by_cases hjm : j < mid
            · exact habove j hj1 hjm
            · exact Nat.lt_of_lt_of_le h2 (hmono mid j (by omega) (by omega))
        · rw [if_neg h2]
          exact ⟨hmge, hmlt, by omega⟩
    · rw [if_neg hlr]
      exact ⟨Nat.le_refl left, by omega, by omega, by omega⟩

/-- Specification of `searchIdx` on strictly sorted keys: everything left of the
returned index is below the target, everything from it on is at or above — i.e.
the index is the lower bound of the target. -/
theorem searchIdx_spec (keys : List Nat) (target : Nat)
    (hsorted : List.Pairwise (· < ·) keys) :
    searchIdx keys target ≤ keys.length ∧
    (∀ j, j < searchIdx keys target → j < keys.length → keys.getD j 0 < target) ∧
    (∀ j, searchIdx keys target ≤ j → j < keys.length → target ≤ keys.getD j 0) := by
  have hgetD : ∀ i, (h : i < keys.length) → keys.getD i 0 = keys[i] := by
    intro i h
    rw [List.getD_eq_getElem?_getD, List.getElem?_eq_getElem h]
    rfl
  have hstrict : ∀ i j, i < j → j < keys.length →
      keys.getD i 0 < keys.getD j 0 := by
    intro i j hij hj
    rw [hgetD i (by omega), hgetD j hj]
    exact List.pairwise_iff_getElem.mp hsorted i j (by omega) hj hij
  have hmono : ∀ i j, i ≤ j → j < keys.length →
      keys.getD i 0 ≤ keys.getD j 0 := by
    intro i j hij hj
    rcases Nat.eq_or_lt_of_le hij with rfl | hlt
    · exact Nat.le_refl _
    · exact Nat.le_of_lt (hstrict i j hlt hj)
  have hspec := binarySearchLoop_spec keys target hmono (keys.length + 1) 0
    keys.length (by omega) (by omega) (by omega)
  unfold searchIdx binary_search_by_key
  revert hspec
  cases binarySearchLoop (keys.length + 1) keys target 0 keys.length with
  | inl i =>
    intro hspec
    obtain ⟨-, hlt, heq⟩ := hspec
    dsimp only
    refine ⟨by omega, ?_, ?_⟩
    · intro j hj _
      rw [← heq]
      exact hstrict j i hj hlt
    · intro j hij hj
      rw [← heq]
      exact hmono i j hij hj
  | inr i =>
    intro hspec
    obtain ⟨-, hle, hbelow, habove⟩ := hspec
    dsimp only
    exact ⟨hle, fun j hj _ => hbelow j (by omega) hj,
      fun j hij hj => Nat.le_of_lt (habove j hij hj)⟩

/-- A filter by a predicate that is false before index `s`, true on `[s, e)` and
false from `e` on equals the slice `l[s..e]` (as `(l.take e).drop s`). -/
theorem filter_eq_take_drop {α : Type} (p : α → Bool) :
    ∀ (l : List α) (s e : Nat), s ≤ e → e ≤ l.length →
    (∀ j, (hj : j < l.length) → j < s → p l[j] = false) →
    (∀ j, (hj : j < l.length) → s ≤ j → j < e → p l[j] = true) →
    (∀ j, (hj : j < l.length) → e ≤ j → p l[j] = false) →
    l.filter p = (l.take e).drop s := by
  intro l
  induction l with
  | nil => intro s e _ _ _ _ _; simp
  | cons x xs ih =>
    intro s e hse he hpre hin hpost
    cases s with
    | zero =>
      cases e with
      | zero =>
        simp only [List.take_zero, List.drop_nil]
        rw [List.filter_eq_nil_iff]
        intro a ha
        obtain ⟨j, hj, rfl⟩ := List.mem_iff_getElem.mp ha
        simp [hpost j hj (by omega)]
      | succ e₂ =>
        have hx : p x = true := hin 0 (by simp) (by omega) (by omega)
        rw [List.filter_cons_of_pos hx, List.take_succ_cons, List.drop_zero]
        have htail : xs.filter p = (xs.take e₂).drop 0 := by
          refine ih 0 e₂ (by omega) (by simp at he; omega) ?_ ?_ ?_
          · intro j hj hneg
            omega
          · intro j hj h0 hje
            have := hin (j + 1) (by simp; omega) (by omega) (by omega)
            rwa [List.getElem_cons_succ] at this
          · intro j hj hge
            have := hpost (j + 1) (by simp; omega) (by omega)
            rwa [List.getElem_cons_succ] at this
        rw [htail, List.drop_zero]
    | succ s₂ =>
      cases e with
      | zero => omega
      | succ e₂ =>
        have hx : p x = false := hpre 0 (by simp) (by omega)
        rw [List.filter_cons_of_neg (by simp [hx]), List.take_succ_cons,
          List.drop_succ_cons]
        refine ih s₂ e₂ (by omega) (by simp at he; omega) ?_ ?_ ?_
        · intro j hj hjs
          have := hpre (j + 1) (by simp; omega) (by omega)
          rwa [List.getElem_cons_succ] at this
        · intro j hj hsj hje
          have := hin (j + 1) (by simp; omega) (by omega) (by omega)
          rwa [List.getElem_cons_succ] at this
        · intro j hj hge
          have := hpost (j + 1) (by simp; omega) (by omega)
          rwa [List.getElem_cons_succ] at this

/-- C4 counterexample: with several tokens sharing the same start offset equal to
the queried range's start, `tokens_in_range` does not return all of them.
Three tokens all starting at byte 5, query `[5, 6)`: the binary search for 5
lands on the middle duplicate (index 1), so only two of the three matching
tokens are returned, while the claim demands the full filtered subsequence. -/
theorem tokens_in_range_duplicate_starts :
    tokens_in_range
        [⟨(5, 6), {}, 0, 0⟩, ⟨(5, 6), {}, 0, 1⟩, ⟨(5, 6), {}, 0, 2⟩] 5 6 =
      some [⟨(5, 6), {}, 0, 1⟩, ⟨(5, 6), {}, 0, 2⟩] ∧
    tokens_in_range
        [⟨(5, 6), {}, 0, 0⟩, ⟨(5, 6), {}, 0, 1⟩, ⟨(5, 6), {}, 0, 2⟩] 5 6 ≠
      some (([⟨(5, 6), {}, 0, 0⟩, ⟨(5, 6), {}, 0, 1⟩,
          ⟨(5, 6), {}, 0, 2⟩] : List MultibufferSemanticToken).filter
        fun t => decide (5 ≤ t.range.1 ∧ t.range.1 < 6)) := by
  refine ⟨by decide, by decide⟩

/-- C4 (amended): when the token starts are strictly increasing (no duplicate
start offsets), `tokens_in_range [a, b)` returns exactly the contiguous
subsequence of tokens whose `range.start` falls in `[a, b)`, in original order.
With duplicated boundary starts the binary search may land anywhere inside the
run of equal keys, so the guarantee needs strictness. -/
theorem tokens_in_range_spec (tokens : List MultibufferSemanticToken) (a b : Nat)
    (hsorted : List.Pairwise (· < ·) (tokens.map fun t => t.range.1))
    (hab : a ≤ b) :
    tokens_in_range tokens a b =
      some (tokens.filter fun t => decide (a ≤ t.range.1 ∧ t.range.1 < b)) := by
  set keys := tokens.map fun t => t.range.1 with hkeys
  have hklen : keys.length = tokens.length := by simp [hkeys]
  have hkey : ∀ j, (hj : j < tokens.length) → keys.getD j 0 = (tokens[j]).range.1 := by
    intro j hj
    rw [hkeys, List.getD_eq_getElem?_getD, List.getElem?_map,
      List.getElem?_eq_getElem hj]
    rfl
  have hA := searchIdx_spec keys a hsorted
  have hB := searchIdx_spec keys b hsorted
  set s := searchIdx keys a with hs
  set e := searchIdx keys b with he
  have hse : s ≤ e := by
    by_contra hcon
    push_neg at hcon
    have h1 : keys.getD e 0 < a := hA.2.1 e hcon (by omega)
    have h2 : b ≤ keys.getD e 0 := hB.2.2 e (Nat.le_refl e) (by omega)
    omega
  have hstep : tokens_in_range tokens a b =
      if s ≤ e ∧ e ≤ tokens.length then some ((tokens.take e).drop s) else none :=
    rfl
  rw [hstep, if_pos ⟨hse, by omega⟩]
  refine congrArg some ?_
  refine (filter_eq_take_drop _ tokens s e hse (by omega) ?_ ?_ ?_).symm
  · intro j hj hjs
    have h1 := hA.2.1 j hjs (by omega)
    rw [hkey j hj] at h1
    exact decide_eq_false_iff_not.mpr (by omega)
  · intro j hj hsj hje
    have h1 := hA.2.2 j hsj (by omega)
    have h2 := hB.2.1 j hje (by omega)
    rw [hkey j hj] at h1 h2
    show decide _ = true
    rw [decide_eq_true_eq]
    exact ⟨h1, h2⟩
  · intro j hj hge
    have h2 := hB.2.2 j hge (by omega)
    rw [hkey j hj] at h2
    exact decide_eq_false_iff_not.mpr (by omega)

/-- C4 witness: the amended range-query theorem at three strictly sorted tokens
starting at bytes 2, 5 and 9 with query `[3, 9)` — exactly the middle token is
returned. -/
theorem tokens_in_range_spec_witness :
    (List.Pairwise (· < ·)
        (([⟨(2, 3), {}, 0, 0⟩, ⟨(5, 6), {}, 0, 0⟩,
           ⟨(9, 10), {}, 0, 0⟩] : List MultibufferSemanticToken).map
          fun t => t.range.1) ∧ 3 ≤ 9) ∧
    tokens_in_range
        [⟨(2, 3), {}, 0, 0⟩, ⟨(5, 6), {}, 0, 0⟩, ⟨(9, 10), {}, 0, 0⟩] 3 9 =
      some (([⟨(2, 3), {}, 0, 0⟩, ⟨(5, 6), {}, 0, 0⟩,
          ⟨(9, 10), {}, 0, 0⟩] : List MultibufferSemanticToken).filter
        fun t => decide (3 ≤ t.range.1 ∧ t.range.1 < 9)) :=
  ⟨⟨by decide, by decide⟩,
   tokens_in_range_spec
     [⟨(2, 3), {}, 0, 0⟩, ⟨(5, 6), {}, 0, 0⟩, ⟨(9, 10), {}, 0, 0⟩] 3 9
     (by decide) (by decide)⟩
